import Mathlib

/-!
Shallow embedding of the backup naming and selection logic of
`utilities/prospector.py` (class `Prospector`), together with the older
revision `prospector.py`.  Python byte strings are modelled as `List Char`
(all characters involved are ASCII, so byte order and codepoint order
agree), Python `datetime` values as the `DateTime` structure below, and the
S3 bucket contents as a list of keyed, tagged objects.
-/

/-- ASCII word character, the `\w` class of Python 2 `re` on byte strings:
`[a-zA-Z0-9_]`. -/

def isWordChar (c : Char) : Bool :=
  c.isAlpha || c.isDigit || c == '_'

/-- Lexicographic (byte-wise) strict comparison of strings, the order Python
uses for `str` values such as S3 keys. -/

def lexLt : List Char → List Char → Bool
  | [], [] => false
  | [], _ :: _ => true
  | _ :: _, [] => false
  | a :: as, b :: bs =>
    if a.toNat < b.toNat then true
    else if b.toNat < a.toNat then false
    else lexLt as bs

/-- ASCII digit character for decimal digit `d % 10`, as produced by the
zero-padded numeric fields of Python's `strftime`. -/

def digitCh (d : Nat) : Char :=
  match d % 10 with
  | 0 => '0' | 1 => '1' | 2 => '2' | 3 => '3' | 4 => '4'
  | 5 => '5' | 6 => '6' | 7 => '7' | 8 => '8' | _ => '9'

/-- Fixed-width, zero-padded decimal rendering (most significant digit
first), the behaviour of `strftime` fields such as `%Y`, `%m`, `%d`. -/

def padChars : Nat → Nat → List Char
  | 0, _ => []
  | w + 1, n => padChars w (n / 10) ++ [digitCh n]

/-- Python `datetime` value at second resolution (the program only ever
constructs and parses whole-second timestamps). -/

structure DateTime where
  y : Nat
  mo : Nat
  d : Nat
  h : Nat
  mi : Nat
  s : Nat

deriving DecidableEq

/-- Gregorian leap year, as used by Python's `datetime` validation. -/

def isLeap (y : Nat) : Bool :=
  y % 4 == 0 && (y % 100 != 0 || y % 400 == 0)

def daysInMonth (y mo : Nat) : Nat :=
  if mo == 2 then (if isLeap y then 29 else 28)
  else if mo == 4 || mo == 6 || mo == 9 || mo == 11 then 30
  else 31

/-- The invariant of a Python `datetime` instance (year 1..9999, valid
calendar date, time of day in range). -/

def validDT (t : DateTime) : Prop :=
  1 ≤ t.y ∧ t.y ≤ 9999 ∧ 1 ≤ t.mo ∧ t.mo ≤ 12 ∧ 1 ≤ t.d ∧
    t.d ≤ daysInMonth t.y t.mo ∧ t.h ≤ 23 ∧ t.mi ≤ 59 ∧ t.s ≤ 59

instance (t : DateTime) : Decidable (validDT t) := by
  unfold validDT; infer_instance

/-- Python `datetime` comparison: lexicographic on the fields. -/

def dtLt (a b : DateTime) : Bool :=
  if a.y < b.y then true else if b.y < a.y then false
  else if a.mo < b.mo then true else if b.mo < a.mo then false
  else if a.d < b.d then true else if b.d < a.d then false
  else if a.h < b.h then true else if b.h < a.h then false
  else if a.mi < b.mi then true else if b.mi < a.mi then false
  else decide (a.s < b.s)

/-- `strftime('%Y%m%dT%H%M%S')`: fixed-width zero-padded fields with a
literal `T` between date and time. -/

def s3Fmt (t : DateTime) : List Char :=
  padChars 4 t.y ++ padChars 2 t.mo ++ padChars 2 t.d ++ ['T'] ++
    padChars 2 t.h ++ padChars 2 t.mi ++ padChars 2 t.s

/-- `s3_backup_prefix`: `'{}/backups/{}'.format(server_name, world_name)`. -/

def s3BackupNs (server world : List Char) : List Char :=
  server ++ "/backups/".data ++ world

/-- `s3_backup_key`: `'{}-{}.zip'.format(s3_backup_prefix, strftime(...))`. -/

def s3_backup_key (server world : List Char) (t : DateTime) : List Char :=
  s3BackupNs server world ++ ('-' :: s3Fmt t) ++ ".zip".data

/-- `os.path.basename`: the part of the path after the final `/`. -/

def basename (s : List Char) : List Char :=
  (s.reverse.takeWhile (fun c => !(c == '/'))).reverse

/-- Value of a string of ASCII digits, as read by `strptime`. -/

def digitVal (c : Char) : Nat := c.toNat - 48

def natOfDigits (cs : List Char) : Nat :=
  cs.foldl (fun a c => a * 10 + digitVal c) 0

/-- Greedy `\w+` followed by a continuation pattern, with the backtracking
of Python's `re`: the longest word-character run is tried first, then
successively shorter nonempty ones.  `greedyWord k s p` tries run lengths
`p, p-1, ..., 1`. -/

def greedyWord (k : List Char → Option (List Char)) (s : List Char) :
    Nat → Option (List Char)
  | 0 => none
  | p + 1 =>
    if (s.take (p + 1)).all isWordChar then
      match k (s.drop (p + 1)) with
      | some g => some g
      | none => greedyWord k s p
    else greedyWord k s p

/-- The tail of `S3_BACKUP_RE = '\w+-(\d{8}T\d{6}).zip'` after the leading
`\w+`: a literal `-`, the 15-character timestamp group, one arbitrary
character (the unescaped `.`), and the literal `zip`.  Returns `group(1)`. -/

def s3PatAt : List Char → Option (List Char)
  | '-' :: t =>
    if 19 ≤ t.length ∧ (t.take 8).all Char.isDigit ∧ t[8]? = some 'T' ∧
        ((t.drop 9).take 6).all Char.isDigit ∧
        t[16]? = some 'z' ∧ t[17]? = some 'i' ∧ t[18]? = some 'p' then
      some (t.take 15)
    else none
  | _ => none

/-- `S3_BACKUP_RE.match(s)`, returning `group(1)` on success. -/

def s3BackupMatch (s : List Char) : Option (List Char) :=
  greedyWord s3PatAt s s.length

/-- `datetime.strptime(cs, '%Y%m%dT%H%M%S')` on the strings this program
can feed it: the 15-character `\d{8}T\d{6}` groups produced by
`S3_BACKUP_RE`.  Succeeds exactly when the digits name a valid datetime;
`none` models the `ValueError` Python raises otherwise. -/

def strptimeS3 (cs : List Char) : Option DateTime :=
  if cs.length = 15 ∧ (cs.take 8).all Char.isDigit ∧ cs[8]? = some 'T' ∧
      ((cs.drop 9).take 6).all Char.isDigit then
    let t : DateTime :=
      ⟨natOfDigits (cs.take 4), natOfDigits ((cs.drop 4).take 2),
       natOfDigits ((cs.drop 6).take 2), natOfDigits ((cs.drop 9).take 2),
       natOfDigits ((cs.drop 11).take 2), natOfDigits ((cs.drop 13).take 2)⟩
    if validDT t then some t else none
  else none

/-- Lines 142–144 of `utilities/prospector.py`: re-match the canonical
pattern against the basename of a key and parse the timestamp group.
`none` models an uncaught `AttributeError`/`ValueError`. -/

def backupTimeOfKey (k : List Char) : Option DateTime :=
  (s3BackupMatch (basename k)).bind strptimeS3

/-- The order established by `backups.sort(reverse=True)`: an element may
precede another when it is not lexicographically smaller. -/

def descGe (a b : List Char) : Prop := lexLt a b = false

instance : DecidableRel descGe := fun a b => by
  unfold descGe; infer_instance

/-- Does a key's basename match `S3_BACKUP_RE`?  (The filter applied while
scanning the sorted key list.) -/

def matchesS3 (b : List Char) : Bool := (s3BackupMatch (basename b)).isSome

/-- `get_most_recent_backup_key`, applied to the keys returned by
`list_objects`: sort in descending lexicographic order, return the first
key whose basename matches `S3_BACKUP_RE`, or `None`. -/

def get_most_recent_backup_key (keys : List (List Char)) : Option (List Char) :=
  (List.insertionSort descGe keys).find? matchesS3

/-- A remote object: key, payload identity (the local path that was
uploaded), and its current tag set. -/

structure S3Obj where
  key : List Char
  content : List (List Char)
  tags : List (List Char × List Char)

deriving DecidableEq

/-- `list_objects(Bucket=..., Prefix=ns)`: the keys under the namespace. -/

def keysWithNs (st : List S3Obj) (ns : List Char) : List (List Char) :=
  (st.filter (fun o => ns.isPrefixOf o.key)).map S3Obj.key

def getMostRecentKeySt (st : List S3Obj) (ns : List Char) : Option (List Char) :=
  get_most_recent_backup_key (keysWithNs st ns)

/-- `client.upload_file(path, bucket, key)`: a put that overwrites any
object already at `key`; a fresh object carries no tags. -/

def uploadObj (st : List S3Obj) (path : List (List Char)) (key : List Char) :
    List S3Obj :=
  st.filter (fun o => !(o.key == key)) ++ [⟨key, path, []⟩]

/-- `put_object_tagging`: replaces the whole tag set of the object at
`key`. -/

def tagObj (st : List S3Obj) (key : List Char)
    (tags : List (List Char × List Char)) : List S3Obj :=
  st.map (fun o => if o.key == key then ⟨o.key, o.content, tags⟩ else o)

/-- The `TagSet` built by `tag_s3_object(key, backup=v)`. -/

def backupTag (v : List Char) : List (List Char × List Char) :=
  [("backup".data, v)]

def s3BackupKeyNs (ns : List Char) (t : DateTime) : List Char :=
  ns ++ ('-' :: s3Fmt t) ++ ".zip".data

/-- Lines 136–158 of `utilities/prospector.py`: look up the most recent
remote key, parse its timestamp, and upload + retag when an explicit
archive was given, no remote backup exists, or the local stamp is strictly
newer.  `none` models an uncaught exception (the unguarded `.group(1)`
extraction or a `strptime` failure). -/

def pushCore (zipfileProvided : Bool) (latestPath : List (List Char))
    (latestStamp : DateTime) (ns : List Char) (st : List S3Obj) :
    Option (List S3Obj) :=
  match getMostRecentKeySt st ns with
  | none =>
    let newKey := s3BackupKeyNs ns latestStamp
    some (tagObj (uploadObj st latestPath newKey) newKey (backupTag "new".data))
  | some k =>
    match backupTimeOfKey k with
    | none => none
    | some s3stamp =>
      if zipfileProvided || dtLt s3stamp latestStamp then
        let newKey := s3BackupKeyNs ns latestStamp
        some (tagObj
          (tagObj (uploadObj st latestPath newKey) newKey (backupTag "new".data))
          k (backupTag "old".data))
      else some st

/-- A directory tree: plain files and named subdirectories, in the order
`os.walk` lists them. -/

inductive FSDir where
  | mk (files : List (List Char)) (subdirs : List (List Char × FSDir))

/-- Tail of `BACKUP_FORMATS[0] = '\w+-\w+-(\d{4}-\d{2}-\d{2}--\d{2}-\d{2}).zip'`
after `\w+-\w+-`: the 17-character group, one arbitrary character and
`zip`.  Returns `group(1)`. -/

def aromaPatAt (s : List Char) : Option (List Char) :=
  if 21 ≤ s.length ∧ (s.take 4).all Char.isDigit ∧ s[4]? = some '-' ∧
      ((s.drop 5).take 2).all Char.isDigit ∧ s[7]? = some '-' ∧
      ((s.drop 8).take 2).all Char.isDigit ∧ s[10]? = some '-' ∧
      s[11]? = some '-' ∧ ((s.drop 12).take 2).all Char.isDigit ∧
      s[14]? = some '-' ∧ ((s.drop 15).take 2).all Char.isDigit ∧
      s[18]? = some 'z' ∧ s[19]? = some 'i' ∧ s[20]? = some 'p' then
    some (s.take 17)
  else none

def aromaTail2 : List Char → Option (List Char)
  | '-' :: t => aromaPatAt t
  | _ => none

def aromaTail : List Char → Option (List Char)
  | '-' :: t => greedyWord aromaTail2 t t.length
  | _ => none

/-- `BACKUP_FORMATS[0]` matcher (Aroma backup naming). -/

def aromaMatch (s : List Char) : Option (List Char) :=
  greedyWord aromaTail s s.length

/-- `BACKUP_FORMATS[1] = '(\d{4}-\d{2}-\d{2}-\d{2}-\d{2}-\d{2}).zip'`
matcher (FTB Utilities backup naming), anchored at the start. -/

def ftbMatch (s : List Char) : Option (List Char) :=
  if 23 ≤ s.length ∧ (s.take 4).all Char.isDigit ∧ s[4]? = some '-' ∧
      ((s.drop 5).take 2).all Char.isDigit ∧ s[7]? = some '-' ∧
      ((s.drop 8).take 2).all Char.isDigit ∧ s[10]? = some '-' ∧
      ((s.drop 11).take 2).all Char.isDigit ∧ s[13]? = some '-' ∧
      ((s.drop 14).take 2).all Char.isDigit ∧ s[16]? = some '-' ∧
      ((s.drop 17).take 2).all Char.isDigit ∧
      s[20]? = some 'z' ∧ s[21]? = some 'i' ∧ s[22]? = some 'p' then
    some (s.take 19)
  else none

/-- `datetime.strptime(cs, '%Y-%m-%d--%H-%M')` on the 17-character groups
produced by the Aroma pattern; the parsed datetime has zero seconds. -/

def strptimeAroma (cs : List Char) : Option DateTime :=
  if cs.length = 17 ∧ (cs.take 4).all Char.isDigit ∧ cs[4]? = some '-' ∧
      ((cs.drop 5).take 2).all Char.isDigit ∧ cs[7]? = some '-' ∧
      ((cs.drop 8).take 2).all Char.isDigit ∧ cs[10]? = some '-' ∧
      cs[11]? = some '-' ∧ ((cs.drop 12).take 2).all Char.isDigit ∧
      cs[14]? = some '-' ∧ ((cs.drop 15).take 2).all Char.isDigit then
    let t : DateTime :=
      ⟨natOfDigits (cs.take 4), natOfDigits ((cs.drop 5).take 2),
       natOfDigits ((cs.drop 8).take 2), natOfDigits ((cs.drop 12).take 2),
       natOfDigits ((cs.drop 15).take 2), 0⟩
    if validDT t then some t else none
  else none

/-- `datetime.strptime(cs, '%Y-%m-%d-%H-%M-%S')` on the 19-character groups
produced by the FTB pattern. -/

def strptimeFtb (cs : List Char) : Option DateTime :=
  if cs.length = 19 ∧ (cs.take 4).all Char.isDigit ∧ cs[4]? = some '-' ∧
      ((cs.drop 5).take 2).all Char.isDigit ∧ cs[7]? = some '-' ∧
      ((cs.drop 8).take 2).all Char.isDigit ∧ cs[10]? = some '-' ∧
      ((cs.drop 11).take 2).all Char.isDigit ∧ cs[13]? = some '-' ∧
      ((cs.drop 14).take 2).all Char.isDigit ∧ cs[16]? = some '-' ∧
      ((cs.drop 17).take 2).all Char.isDigit then
    let t : DateTime :=
      ⟨natOfDigits (cs.take 4), natOfDigits ((cs.drop 5).take 2),
       natOfDigits ((cs.drop 8).take 2), natOfDigits ((cs.drop 11).take 2),
       natOfDigits ((cs.drop 14).take 2), natOfDigits ((cs.drop 17).take 2)⟩
    if validDT t then some t else none
  else none

/-- Lines 114–124: try each `(file_re, date_fmt)` of `BACKUP_FORMATS` in
order; `none` = no format matched (file skipped), `some none` = a format
matched but `strptime` raised, `some (some t)` = timestamp `t`. -/

def matchBackupFormats (f : List Char) : Option (Option DateTime) :=
  match aromaMatch f with
  | some g => some (strptimeAroma g)
  | none =>
    match ftbMatch f with
    | some g => some (strptimeFtb g)
    | none => none

/-- Running best candidate of the local scan: path and timestamp. -/

abbrev ScanAcc := Option (List (List Char) × DateTime)

/-- Lines 112–127: fold the files of one directory into the running best
candidate; a strictly later timestamp wins.  `none` models a `strptime`
exception aborting the walk. -/

def scanFiles (root : List (List Char)) :
    List (List Char) → ScanAcc → Option ScanAcc
  | [], acc => some acc
  | f :: fs, acc =>
    match matchBackupFormats f with
    | none => scanFiles root fs acc
    | some none => none
    | some (some t) =>
      let acc' : ScanAcc :=
        match acc with
        | none => some (root ++ [f], t)
        | some (p0, t0) =>
          if dtLt t0 t then some (root ++ [f], t) else some (p0, t0)
      scanFiles root fs acc'

mutual
/-- `os.walk` below the top level: files of this directory, then each
subdirectory in order (no pruning below the top). -/
def scanTree (path : List (List Char)) (d : FSDir) (acc : ScanAcc) :
    Option ScanAcc :=
  match d with
  | .mk files subdirs =>
    match scanFiles path files acc with
    | none => none
    | some acc' => scanSubdirs path subdirs acc'

def scanSubdirs (path : List (List Char)) :
    List (List Char × FSDir) → ScanAcc → Option ScanAcc
  | [], acc => some acc
  | (n, sub) :: rest, acc =>
    match scanTree (path ++ [n]) sub acc with
    | none => none
    | some acc' => scanSubdirs path rest acc'
end

/-- Lines 101–127 of `utilities/prospector.py`: walk the local backup
directory for the most recent backup.  At the top level only, if a
subdirectory named exactly `world` exists, every other subdirectory is
deleted from the walk list in place before recursion. -/

def localScan (world : List Char) (rootPath : List (List Char))
    (root : FSDir) : Option ScanAcc :=
  match root with
  | .mk files subdirs =>
    let dirs :=
      if subdirs.any (fun p => p.1 == world) then
        subdirs.filter (fun p => p.1 == world)
      else subdirs
    match scanFiles rootPath files none with
    | none => none
    | some acc => scanSubdirs rootPath dirs acc

/-- `push_most_recent_backup(zipfile)`: scan (or take the explicit archive
with its mtime), then run the upload/retag step.  `none` models an uncaught
exception; `some st` with unchanged `st` is the no-op path. -/

def push_most_recent_backup (world ns : List Char)
    (rootPath : List (List Char)) (root : FSDir)
    (zipfile : Option (List (List Char) × DateTime)) (st : List S3Obj) :
    Option (List S3Obj) :=
  match zipfile with
  | some (p, t) => pushCore true p t ns st
  | none =>
    match localScan world rootPath root with
    | none => none
    | some none => some st
    | some (some (p, t)) => pushCore false p t ns st

mutual
/-- All file paths in a directory tree (the files `os.walk` would report
under an existing directory), in walk order. -/
def treePaths (path : List (List Char)) (d : FSDir) :
    List (List (List Char)) :=
  match d with
  | .mk files subdirs =>
    files.map (fun f => path ++ [f]) ++ subTreePaths path subdirs

def subTreePaths (path : List (List Char)) :
    List (List Char × FSDir) → List (List (List Char))
  | [] => []
  | (n, sub) :: rest => treePaths (path ++ [n]) sub ++ subTreePaths path rest
end

/-- Result of `shutil.make_archive(base, 'zip', root, base_dir)`. -/

structure ArchiveResult where
  fileCreated : Bool
  members : List (List (List Char))
  errorReported : Bool

deriving DecidableEq

/-- `shutil.make_archive(tmp, 'zip', server_path, world)` as used on line
174: the zip file is created unconditionally; its members are the files
`os.walk(world)` yields.  When the `world` subdirectory does not exist the
walk yields nothing (`os.walk` swallows the listing error), so an empty —
but real — archive is produced and no error is raised. -/

def make_archive (serverDir : FSDir) (world : List Char) : ArchiveResult :=
  match serverDir with
  | .mk _ subdirs =>
    match subdirs.find? (fun p => p.1 == world) with
    | some (_, sub) =>
      { fileCreated := true, members := treePaths [world] sub,
        errorReported := false }
    | none =>
      { fileCreated := true, members := [], errorReported := false }

/-- `push_current_backup` (lines 161–178): archive the live world into a
scratch zip, then hand it to `push_most_recent_backup(zipfile=...)`.  The
archive file was just written, so its mtime is the same instant `now` used
to name the key.  Returns the archive-construction outcome and the final
remote state (`none` = crash). -/

def push_current_backup (server world : List Char) (serverDir : FSDir)
    (now : DateTime) (st : List S3Obj) :
    ArchiveResult × Option (List S3Obj) :=
  let key := s3_backup_key server world now
  let tmpPath := ["tmp".data, basename key]
  let ar := make_archive serverDir world
  (ar, push_most_recent_backup world (s3BackupNs server world)
        [] (FSDir.mk [] []) (some (tmpPath, now)) st)

/-- Observable outcome of `fetch_most_recent_backup`. -/

structure FetchResult where
  downloadedKey : Option (List Char)
  extractedTo : Option (List (List Char))
  badZipLogged : Bool
  noBackupsLogged : Bool
  scratchRemoved : Bool

deriving DecidableEq

/-- `fetch_most_recent_backup` (lines 58–88).  `archiveCorrupt` says whether
opening the downloaded object as a zip raises `BadZipfile`; that exception
is caught (logged as an error) and `os.remove(tmp_path)` runs on both the
success and the caught-exception paths.  With no remote key the function
only logs a warning. -/

def fetch_most_recent_backup (serverRootPath : List (List Char))
    (serverName ns : List Char) (st : List S3Obj) (archiveCorrupt : Bool) :
    FetchResult :=
  match getMostRecentKeySt st ns with
  | some key =>
    if archiveCorrupt then
      { downloadedKey := some key, extractedTo := none,
        badZipLogged := true, noBackupsLogged := false,
        scratchRemoved := true }
    else
      { downloadedKey := some key,
        extractedTo := some (serverRootPath ++ [serverName]),
        badZipLogged := false, noBackupsLogged := false,
        scratchRemoved := true }
  | none =>
    { downloadedKey := none, extractedTo := none, badZipLogged := false,
      noBackupsLogged := true, scratchRemoved := false }

/-- `put_object_tagging(Bucket='josh-minecraft', ...)` in the older
revision `prospector.py`: the bucket name is hardcoded, so the call only
reaches the modelled (configured) bucket when that bucket is named
`josh-minecraft`; otherwise it raises, modelled as `none`. -/

def tagObjOldRev (cfgBucket : List Char) (st : List S3Obj)
    (key : List Char) (tags : List (List Char × List Char)) :
    Option (List S3Obj) :=
  if cfgBucket = "josh-minecraft".data then some (tagObj st key tags)
  else none

/-- Lines 99–139 of the older revision `prospector.py`: same lookup and
comparison, but no `zipfile` short-circuit, the first tag value is
`current` (not `new`), and BOTH `put_object_tagging` calls target the key
of the newly uploaded object in the hardcoded bucket. -/

def pushCoreOld (cfgBucket : List Char) (latestPath : List (List Char))
    (latestStamp : DateTime) (ns : List Char) (st : List S3Obj) :
    Option (List S3Obj) :=
  match getMostRecentKeySt st ns with
  | none =>
    let newKey := s3BackupKeyNs ns latestStamp
    (tagObjOldRev cfgBucket (uploadObj st latestPath newKey) newKey
        (backupTag "current".data)).bind
      (fun st1 => tagObjOldRev cfgBucket st1 newKey (backupTag "old".data))
  | some k =>
    match backupTimeOfKey k with
    | none => none
    | some s3stamp =>
      if dtLt s3stamp latestStamp then
        let newKey := s3BackupKeyNs ns latestStamp
        (tagObjOldRev cfgBucket (uploadObj st latestPath newKey) newKey
            (backupTag "current".data)).bind
          (fun st1 => tagObjOldRev cfgBucket st1 newKey (backupTag "old".data))
      else some st

/-- The date fields of a `DateTime` packed into one number (the value the
8 digits before the `T` denote). -/
def dateVal (t : DateTime) : Nat := (t.y * 100 + t.mo) * 100 + t.d

/-- The time fields packed into one number (the 6 digits after the `T`). -/
def timeVal (t : DateTime) : Nat := (t.h * 100 + t.mi) * 100 + t.s

def FSDir.files : FSDir → List (List Char)
  | .mk fs _ => fs

def FSDir.subdirs : FSDir → List (List Char × FSDir)
  | .mk _ ds => ds

theorem char_eq_of_toNat_eq {a b : Char} (h : a.toNat = b.toNat) : a = b := by
  rw [← Char.ofNat_toNat a, ← Char.ofNat_toNat b, h]

theorem lexLt_self (xs : List Char) : lexLt xs xs = false := by
  induction xs with
  | nil => rfl
  | cons a as ih => simp [lexLt, ih]

theorem lexLt_asymm :
    ∀ xs ys : List Char, lexLt xs ys = true → lexLt ys xs = false
  | [], [], _ => rfl
  | [], _ :: _, _ => rfl
  | _ :: _, [], h => by simp [lexLt] at h
  | a :: as, b :: bs, h => by
    simp only [lexLt] at h ⊢
    by_cases hab : a.toNat < b.toNat
    · have hba : ¬ b.toNat < a.toNat := by omega
      simp [hab, hba]
    · by_cases hba : b.toNat < a.toNat
      · simp [hab, hba] at h
      · simp only [hab, hba, if_false] at h ⊢
        exact lexLt_asymm as bs h

theorem lexLt_trans :
    ∀ xs ys zs : List Char, lexLt xs ys = true → lexLt ys zs = true →
      lexLt xs zs = true
  | [], [], _, h1, _ => by simp [lexLt] at h1
  | [], _ :: _, [], _, h2 => by simp [lexLt] at h2
  | [], _ :: _, _ :: _, _, _ => rfl
  | _ :: _, [], _, h1, _ => by simp [lexLt] at h1
  | _ :: _, _ :: _, [], _, h2 => by simp [lexLt] at h2
  | a :: as, b :: bs, c :: cs, h1, h2 => by
    simp only [lexLt] at h1 h2 ⊢
    by_cases hab : a.toNat < b.toNat
    · by_cases hbc : b.toNat < c.toNat
      · have h : a.toNat < c.toNat := by omega
        simp [h]
      · by_cases hcb : c.toNat < b.toNat
        · simp [hbc, hcb] at h2
        · have h : a.toNat < c.toNat := by omega
          simp [h]
    · by_cases hba : b.toNat < a.toNat
      · simp [hab, hba] at h1
      · by_cases hbc : b.toNat < c.toNat
        · have h : a.toNat < c.toNat := by omega
          simp [h]
        · by_cases hcb : c.toNat < b.toNat
          · simp [hbc, hcb] at h2
          · have hx : ¬ a.toNat < c.toNat := by omega
            have hy : ¬ c.toNat < a.toNat := by omega
            simp only [hab, hba, if_false] at h1
            simp only [hbc, hcb, if_false] at h2
            simp only [hx, hy, if_false]
            exact lexLt_trans as bs cs h1 h2

theorem eq_of_lexLt_false :
    ∀ xs ys : List Char, lexLt xs ys = false → lexLt ys xs = false → xs = ys
  | [], [], _, _ => rfl
  | [], _ :: _, h, _ => by simp [lexLt] at h
  | _ :: _, [], _, h => by simp [lexLt] at h
  | a :: as, b :: bs, h1, h2 => by
    simp only [lexLt] at h1 h2
    by_cases hab : a.toNat < b.toNat
    · simp [hab] at h1
    · by_cases hba : b.toNat < a.toNat
      · simp [hab, hba] at h2
      · have ha : a = b := char_eq_of_toNat_eq (by omega)
        simp only [hab, hba, if_false] at h1 h2
        rw [ha, eq_of_lexLt_false as bs h1 h2]

theorem lexLt_append_left (xs as bs : List Char) :
    lexLt (xs ++ as) (xs ++ bs) = lexLt as bs := by
  induction xs with
  | nil => rfl
  | cons c cs ih => simp [lexLt, ih]

theorem lexLt_append_eq_length :
    ∀ xs ys as bs : List Char, xs.length = ys.length →
      lexLt (xs ++ as) (ys ++ bs) =
        (lexLt xs ys || (xs == ys && lexLt as bs))
  | [], [], as, bs, _ => by simp [lexLt]
  | [], _ :: _, _, _, h => by simp at h
  | _ :: _, [], _, _, h => by simp at h
  | a :: xs, b :: ys, as, bs, h => by
    have h' : xs.length = ys.length := by simpa using h
    simp only [List.cons_append, lexLt, List.append_eq]
    by_cases hab : a.toNat < b.toNat
    · simp [hab]
    · by_cases hba : b.toNat < a.toNat
      · have hne : a ≠ b := fun he => by simp [he] at hba
        simp [hab, hba, hne]
      · have hv : a = b := char_eq_of_toNat_eq (by omega)
        subst hv
        simp only [hab, if_false, lt_irrefl]
        rw [lexLt_append_eq_length xs ys as bs h']
        simp

theorem digitCh_toNat (d : Nat) : (digitCh d).toNat = 48 + d % 10 := by
  have h : d % 10 < 10 := Nat.mod_lt _ (by norm_num)
  unfold digitCh
  set m := d % 10 with hm
  interval_cases m <;> rfl

theorem padChars_length (w n : Nat) : (padChars w n).length = w := by
  induction w generalizing n with
  | zero => rfl
  | succ w ih => simp [padChars, ih]

theorem digitCh_inj (a b : Nat) (h : digitCh a = digitCh b) :
    a % 10 = b % 10 := by
  have := congrArg Char.toNat h
  rw [digitCh_toNat, digitCh_toNat] at this
  omega

theorem padChars_inj :
    ∀ w a b, a < 10 ^ w → b < 10 ^ w → padChars w a = padChars w b → a = b
  | 0, a, b, ha, hb, _ => by
    simp [Nat.pow_zero] at ha hb; omega
  | w + 1, a, b, ha, hb, h => by
    simp only [padChars] at h
    have hlen : (padChars w (a / 10)).length = (padChars w (b / 10)).length := by
      simp [padChars_length]
    obtain ⟨h1, h2⟩ := List.append_inj h hlen
    have hd : a % 10 = b % 10 := digitCh_inj a b (by simpa using h2)
    have ha' : a / 10 < 10 ^ w := by
      have := Nat.pow_succ 10 w
      omega
    have hb' : b / 10 < 10 ^ w := by
      have := Nat.pow_succ 10 w
      omega
    have hq : a / 10 = b / 10 := padChars_inj w _ _ ha' hb' h1
    omega

theorem lexLt_padChars :
    ∀ w a b, a < 10 ^ w → b < 10 ^ w →
      (lexLt (padChars w a) (padChars w b) = true ↔ a < b)
  | 0, a, b, ha, hb => by
    simp [Nat.pow_zero] at ha hb
    simp [padChars, lexLt]; omega
  | w + 1, a, b, ha, hb => by
    have ha' : a / 10 < 10 ^ w := by have := Nat.pow_succ 10 w; omega
    have hb' : b / 10 < 10 ^ w := by have := Nat.pow_succ 10 w; omega
    simp only [padChars]
    rw [lexLt_append_eq_length _ _ _ _ (by simp [padChars_length])]
    constructor
    · intro h
      rcases Bool.or_eq_true_iff.mp h with h1 | h2
      · have := (lexLt_padChars w _ _ ha' hb').mp h1
        omega
      · obtain ⟨he, hl⟩ := Bool.and_eq_true_iff.mp h2
        have heq : a / 10 = b / 10 :=
          padChars_inj w _ _ ha' hb' (by simpa using he)
        have hm : a % 10 < b % 10 := by
          simp only [lexLt] at hl
          rw [digitCh_toNat, digitCh_toNat] at hl
          by_cases hc : 48 + a % 10 < 48 + b % 10
          · omega
          · by_cases hc2 : 48 + b % 10 < 48 + a % 10 <;> simp [hc, hc2] at hl
        omega
    · intro h
      by_cases hq : a / 10 < b / 10
      · have := (lexLt_padChars w _ _ ha' hb').mpr hq
        simp [this]
      · have heq : a / 10 = b / 10 := by omega
        have hm : a % 10 < b % 10 := by omega
        have hl : lexLt [digitCh a] [digitCh b] = true := by
          simp only [lexLt]
          rw [digitCh_toNat, digitCh_toNat]
          simp [hm]
        rw [heq]
        simp [hl, lexLt_self]

/-- In a list sorted by `r`, the first element satisfying `p` is related by
`r` to (or equal to) every element satisfying `p`. -/
theorem find?_sorted_min {α : Type _} {r : α → α → Prop} {p : α → Bool} :
    ∀ {l : List α}, l.Sorted r → ∀ {b : α}, l.find? p = some b →
      ∀ x ∈ l, p x = true → r b x ∨ b = x := by
  intro l
  induction l with
  | nil => intro _ b hf; simp at hf
  | cons a t ih =>
    intro hs b hf x hx hpx
    rcases List.sorted_cons.mp hs with ⟨ha, ht⟩
    by_cases hpa : p a = true
    · rw [List.find?_cons_of_pos _ hpa] at hf
      injection hf with hba
      subst hba
      rcases List.mem_cons.mp hx with h | h
      · exact Or.inr h.symm
      · exact Or.inl (ha x h)
    · rw [List.find?_cons_of_neg _ (by simpa using hpa)] at hf
      rcases List.mem_cons.mp hx with h | h
      · rw [h] at hpx; exact absurd hpx hpa
      · exact ih ht hf x h hpx

/-- C2: `get_most_recent_backup_key` returns `none` exactly when no key's
basename matches the canonical pattern; otherwise it returns a key of the
listing whose basename matches, and which no other matching key of the
listing exceeds lexicographically (the result of sorting in descending
lexicographic order and taking the first match, skipping non-matching
keys). -/
theorem get_most_recent_backup_key_spec (keys : List (List Char)) :
    (get_most_recent_backup_key keys = none ↔
      ∀ b ∈ keys, matchesS3 b = false) ∧
    (∀ b, get_most_recent_backup_key keys = some b →
      b ∈ keys ∧ matchesS3 b = true ∧
        ∀ c ∈ keys, matchesS3 c = true → lexLt b c = false) := by
  haveI hTot : IsTotal (List Char) descGe := by
    constructor
    intro a b
    by_cases h : lexLt a b = true
    · exact Or.inr (lexLt_asymm a b h)
    · exact Or.inl (by simpa [descGe] using h)
  haveI hTrans : IsTrans (List Char) descGe := by
    constructor
    intro a b c hab hbc
    unfold descGe at hab hbc ⊢
    by_cases hac : lexLt a c = true
    · by_cases hba : lexLt b a = true
      · by_cases hcb : lexLt c b = true
        · have := lexLt_trans a c b hac hcb
          rw [this] at hab; cases hab
        · have hbc_eq : b = c := eq_of_lexLt_false b c hbc (by simpa using hcb)
          rw [← hbc_eq] at hac
          rw [hac] at hab; cases hab
      · have hab_eq : a = b := eq_of_lexLt_false a b hab (by simpa using hba)
        rw [hab_eq] at hac
        rw [hac] at hbc; cases hbc
    · simpa using hac
  constructor
  · unfold get_most_recent_backup_key
    rw [List.find?_eq_none]
    constructor
    · intro h b hb
      have hb' : b ∈ List.insertionSort descGe keys :=
        (List.mem_insertionSort descGe).mpr hb
      simpa using h b hb'
    · intro h b hb
      have hmem : b ∈ keys := (List.mem_insertionSort descGe).mp hb
      simp [h b hmem]
  · intro b hf
    unfold get_most_recent_backup_key at hf
    have hpb : matchesS3 b = true := List.find?_some hf
    have hmem : b ∈ keys :=
      (List.mem_insertionSort descGe).mp (List.mem_of_find?_eq_some hf)
    refine ⟨hmem, hpb, ?_⟩
    intro c hc hpc
    have hsorted : (List.insertionSort descGe keys).Sorted descGe :=
      List.sorted_insertionSort descGe keys
    have hmc : c ∈ List.insertionSort descGe keys :=
      (List.mem_insertionSort descGe).mpr hc
    rcases find?_sorted_min hsorted hf c hmc hpc with h | h
    · exact h
    · rw [h]; exact lexLt_self c

/-- Witness for C2 at a concrete listing: three backups and one malformed
key; the key for the latest instant is returned and dominates the other
matching keys. -/
theorem get_most_recent_backup_key_spec_witness :
    get_most_recent_backup_key
        ["s/backups/w-20200101T000000.zip".data, "s/backups/w-stray".data,
         "s/backups/w-20200303T000000.zip".data,
         "s/backups/w-20200202T000000.zip".data] =
      some "s/backups/w-20200303T000000.zip".data ∧
    ("s/backups/w-20200303T000000.zip".data ∈
        ["s/backups/w-20200101T000000.zip".data, "s/backups/w-stray".data,
         "s/backups/w-20200303T000000.zip".data,
         "s/backups/w-20200202T000000.zip".data] ∧
      matchesS3 "s/backups/w-20200303T000000.zip".data = true ∧
      ∀ c ∈ ["s/backups/w-20200101T000000.zip".data, "s/backups/w-stray".data,
             "s/backups/w-20200303T000000.zip".data,
             "s/backups/w-20200202T000000.zip".data],
        matchesS3 c = true → lexLt "s/backups/w-20200303T000000.zip".data c = false) :=
  ⟨by decide,
   (get_most_recent_backup_key_spec _).2 _ (by decide)⟩

/-- C9 (amended): every non-`None` result of `get_most_recent_backup_key`
has a basename matching `S3_BACKUP_RE`, so the unguarded `.group(1)`
extraction on line 142 cannot fault. -/
theorem get_most_recent_key_matches (st : List S3Obj) (ns k : List Char)
    (h : getMostRecentKeySt st ns = some k) :
    (s3BackupMatch (basename k)).isSome = true := by
  unfold getMostRecentKeySt get_most_recent_backup_key at h
  have := List.find?_some h
  simpa [matchesS3] using this

theorem get_most_recent_key_matches_witness :
    getMostRecentKeySt [⟨"s/backups/w-20200101T000000.zip".data, [], []⟩]
        "s/backups/w".data = some "s/backups/w-20200101T000000.zip".data ∧
    (s3BackupMatch (basename "s/backups/w-20200101T000000.zip".data)).isSome
      = true :=
  ⟨by decide,
   get_most_recent_key_matches
     [⟨"s/backups/w-20200101T000000.zip".data, [], []⟩] "s/backups/w".data
     "s/backups/w-20200101T000000.zip".data (by decide)⟩

/-- C9 counterexample: a remote object whose basename matches
`S3_BACKUP_RE` but whose digits are not a valid datetime.
`get_most_recent_backup_key` returns it, the re-match succeeds, yet the
subsequent `strptime` faults, so `push_most_recent_backup` crashes
(modelled by `none`): the timestamp parse CAN fault. -/
theorem get_most_recent_key_parse_faults :
    getMostRecentKeySt [⟨"s/backups/w-99999999T999999.zip".data, [], []⟩]
        "s/backups/w".data = some "s/backups/w-99999999T999999.zip".data ∧
    matchesS3 "s/backups/w-99999999T999999.zip".data = true ∧
    backupTimeOfKey "s/backups/w-99999999T999999.zip".data = none ∧
    pushCore false [] ⟨2020, 1, 1, 0, 0, 0⟩ "s/backups/w".data
        [⟨"s/backups/w-99999999T999999.zip".data, [], []⟩] = none := by
  refine ⟨by decide, by decide, by decide, ?_⟩
  decide

/-- C6: with no explicit archive, when a most recent remote backup exists
and the discovered local backup's timestamp is not strictly newer, the
operation leaves the remote store untouched: the returned state is exactly
the input state (no upload, no tag change). -/
theorem push_no_op_when_not_newer (world ns : List Char)
    (rootPath : List (List Char)) (root : FSDir)
    (path : List (List Char)) (t : DateTime) (st : List S3Obj)
    (k : List Char) (pt : DateTime)
    (hscan : localScan world rootPath root = some (some (path, t)))
    (hk : getMostRecentKeySt st ns = some k)
    (hpt : backupTimeOfKey k = some pt)
    (hnot : dtLt pt t = false) :
    push_most_recent_backup world ns rootPath root none st = some st := by
  simp [push_most_recent_backup, hscan, pushCore, hk, hpt, hnot]

theorem push_no_op_when_not_newer_witness :
    localScan "w".data ["backups".data]
        (FSDir.mk ["2019-01-01-00-00-00.zip".data] []) =
      some (some (["backups".data, "2019-01-01-00-00-00.zip".data],
        ⟨2019, 1, 1, 0, 0, 0⟩)) ∧
    push_most_recent_backup "w".data "s/backups/w".data ["backups".data]
        (FSDir.mk ["2019-01-01-00-00-00.zip".data] []) none
        [⟨"s/backups/w-20200101T000000.zip".data, [],
          backupTag "new".data⟩] =
      some [⟨"s/backups/w-20200101T000000.zip".data, [],
        backupTag "new".data⟩] :=
  ⟨by decide,
   push_no_op_when_not_newer "w".data "s/backups/w".data ["backups".data]
     (FSDir.mk ["2019-01-01-00-00-00.zip".data] [])
     ["backups".data, "2019-01-01-00-00-00.zip".data] ⟨2019, 1, 1, 0, 0, 0⟩
     [⟨"s/backups/w-20200101T000000.zip".data, [], backupTag "new".data⟩]
     "s/backups/w-20200101T000000.zip".data ⟨2020, 1, 1, 0, 0, 0⟩
     (by decide) (by decide) (by decide) (by decide)⟩

/-- C8: when a most recent remote backup key exists, the scratch file is
removed whether or not extraction succeeded, and a corrupt archive only
logs a recoverable error (no extraction, no crash); when no remote backup
exists the restore is a no-op that logs a warning. -/
theorem fetch_most_recent_backup_spec (srp : List (List Char))
    (sn ns : List Char) (st : List S3Obj) (corrupt : Bool) :
    (∀ k, getMostRecentKeySt st ns = some k →
      (fetch_most_recent_backup srp sn ns st corrupt).scratchRemoved = true ∧
      (corrupt = true →
        (fetch_most_recent_backup srp sn ns st corrupt).badZipLogged = true ∧
        (fetch_most_recent_backup srp sn ns st corrupt).extractedTo = none)) ∧
    (getMostRecentKeySt st ns = none →
      fetch_most_recent_backup srp sn ns st corrupt =
        ⟨none, none, false, true, false⟩) := by
  constructor
  · intro k hk
    unfold fetch_most_recent_backup
    rw [hk]
    cases corrupt <;> simp
  · intro hk
    unfold fetch_most_recent_backup
    rw [hk]

theorem fetch_most_recent_backup_spec_witness :
    getMostRecentKeySt [⟨"s/backups/w-20200101T000000.zip".data, [], []⟩]
        "s/backups/w".data = some "s/backups/w-20200101T000000.zip".data ∧
    ((fetch_most_recent_backup [] "srv".data "s/backups/w".data
        [⟨"s/backups/w-20200101T000000.zip".data, [], []⟩]
        true).scratchRemoved = true ∧
      (true = true →
        (fetch_most_recent_backup [] "srv".data "s/backups/w".data
          [⟨"s/backups/w-20200101T000000.zip".data, [], []⟩]
          true).badZipLogged = true ∧
        (fetch_most_recent_backup [] "srv".data "s/backups/w".data
          [⟨"s/backups/w-20200101T000000.zip".data, [], []⟩]
          true).extractedTo = none)) :=
  ⟨by decide,
   (fetch_most_recent_backup_spec [] "srv".data "s/backups/w".data
     [⟨"s/backups/w-20200101T000000.zip".data, [], []⟩] true).1
     "s/backups/w-20200101T000000.zip".data (by decide)⟩

theorem tagObj_preserves_other {st : List S3Obj} {key : List Char}
    {tags : List (List Char × List Char)} {o : S3Obj}
    (ho : o ∈ st) (hne : o.key ≠ key) : o ∈ tagObj st key tags := by
  unfold tagObj
  refine List.mem_map.mpr ⟨o, ho, ?_⟩
  simp [hne]

theorem tagObj_retags {st : List S3Obj} {key : List Char}
    {tags : List (List Char × List Char)} {o : S3Obj}
    (ho : o ∈ st) (hk : o.key = key) :
    S3Obj.mk o.key o.content tags ∈ tagObj st key tags := by
  unfold tagObj
  refine List.mem_map.mpr ⟨o, ho, ?_⟩
  simp [hk]

theorem mem_tagObj_cases {st : List S3Obj} {key : List Char}
    {tags : List (List Char × List Char)} {o : S3Obj}
    (ho : o ∈ tagObj st key tags) :
    ∃ o0 ∈ st, (o0.key = key ∧ o = S3Obj.mk o0.key o0.content tags) ∨
      (o0.key ≠ key ∧ o = o0) := by
  unfold tagObj at ho
  rcases List.mem_map.mp ho with ⟨o0, ho0, hfo⟩
  refine ⟨o0, ho0, ?_⟩
  by_cases h : o0.key = key
  · left
    refine ⟨h, ?_⟩
    rw [← hfo]
    simp [h]
  · right
    refine ⟨h, ?_⟩
    rw [← hfo]
    simp [h]

theorem uploadObj_preserves_other {st : List S3Obj} {path : List (List Char)}
    {key : List Char} {o : S3Obj} (ho : o ∈ st) (hne : o.key ≠ key) :
    o ∈ uploadObj st path key := by
  unfold uploadObj
  refine List.mem_append.mpr (Or.inl ?_)
  refine List.mem_filter.mpr ⟨ho, ?_⟩
  simp [hne]

theorem uploadObj_mem_new {st : List S3Obj} {path : List (List Char)}
    {key : List Char} : S3Obj.mk key path [] ∈ uploadObj st path key := by
  unfold uploadObj
  exact List.mem_append.mpr (Or.inr (by simp))

theorem mem_uploadObj_cases {st : List S3Obj} {path : List (List Char)}
    {key : List Char} {o : S3Obj} (ho : o ∈ uploadObj st path key) :
    (o ∈ st ∧ o.key ≠ key) ∨ o = S3Obj.mk key path [] := by
  unfold uploadObj at ho
  rcases List.mem_append.mp ho with h | h
  · rcases List.mem_filter.mp h with ⟨hm, hf⟩
    exact Or.inl ⟨hm, by simpa using hf⟩
  · exact Or.inr (by simpa using h)

theorem getMostRecentKeySt_mem {st : List S3Obj} {ns k : List Char}
    (h : getMostRecentKeySt st ns = some k) : ∃ o ∈ st, o.key = k := by
  unfold getMostRecentKeySt get_most_recent_backup_key at h
  have hmem := List.mem_of_find?_eq_some h
  have hk : k ∈ keysWithNs st ns := (List.mem_insertionSort descGe).mp hmem
  unfold keysWithNs at hk
  rcases List.mem_map.mp hk with ⟨o, ho, hko⟩
  exact ⟨o, (List.mem_filter.mp ho).1, hko⟩

/-- The upload-and-retag result of lines 146–158, shared shape of the
confirmed branch of `pushCore`. -/
theorem pushCore_spec (zp : Bool) (path : List (List Char)) (t : DateTime)
    (ns : List Char) (st : List S3Obj)
    (hcond : zp = true ∨ getMostRecentKeySt st ns = none ∨
      ∃ k pt, getMostRecentKeySt st ns = some k ∧
        backupTimeOfKey k = some pt ∧ dtLt pt t = true)
    (hparse : ∀ k, getMostRecentKeySt st ns = some k →
      ∃ pt, backupTimeOfKey k = some pt)
    (hne : ∀ k, getMostRecentKeySt st ns = some k → k ≠ s3BackupKeyNs ns t) :
    ∃ st', pushCore zp path t ns st = some st' ∧
      (∃ o ∈ st', o.key = s3BackupKeyNs ns t) ∧
      (∀ o ∈ st', o.key = s3BackupKeyNs ns t →
        o.content = path ∧ o.tags = backupTag "new".data) ∧
      (∀ k, getMostRecentKeySt st ns = some k →
        (∃ o ∈ st', o.key = k) ∧
        ∀ o ∈ st', o.key = k → o.tags = backupTag "old".data) := by
  cases hprev : getMostRecentKeySt st ns with
  | none =>
    refine ⟨tagObj (uploadObj st path (s3BackupKeyNs ns t))
        (s3BackupKeyNs ns t) (backupTag "new".data),
      by simp [pushCore, hprev], ?_, ?_, ?_⟩
    · exact ⟨S3Obj.mk (s3BackupKeyNs ns t) path (backupTag "new".data),
        tagObj_retags uploadObj_mem_new rfl, rfl⟩
    · intro o ho hok
      rcases mem_tagObj_cases ho with ⟨o0, ho0, h | h⟩
      · rcases mem_uploadObj_cases ho0 with ⟨_, hne0⟩ | hfresh
        · exact absurd h.1 hne0
        · rw [h.2, hfresh]
          exact ⟨rfl, rfl⟩
      · rcases mem_uploadObj_cases ho0 with ⟨_, hne0⟩ | hfresh
        · rw [h.2] at hok
          exact absurd hok hne0
        · exact absurd (by rw [hfresh]) h.1
    · intro k hk
      cases hk
  | some k =>
    rcases hparse k hprev with ⟨pt, hpt⟩
    have hif : (zp || dtLt pt t) = true := by
      rcases hcond with h | h | ⟨kk, pt2, hk2, hpt2, hlt2⟩
      · simp [h]
      · rw [hprev] at h; cases h
      · rw [hprev] at hk2
        injection hk2 with hkk
        subst hkk
        rw [hpt] at hpt2
        injection hpt2 with hpp
        subst hpp
        simp [hlt2]
    have hkne : k ≠ s3BackupKeyNs ns t := hne k hprev
    refine ⟨tagObj (tagObj (uploadObj st path (s3BackupKeyNs ns t))
        (s3BackupKeyNs ns t) (backupTag "new".data)) k (backupTag "old".data),
      by simp [pushCore, hprev, hpt, hif], ?_, ?_, ?_⟩
    · refine ⟨S3Obj.mk (s3BackupKeyNs ns t) path (backupTag "new".data), ?_, rfl⟩
      exact tagObj_preserves_other (tagObj_retags uploadObj_mem_new rfl)
        (fun hc => hkne hc.symm)
    · intro o ho hok
      rcases mem_tagObj_cases ho with ⟨o1, ho1, h | h⟩
      · have : k = s3BackupKeyNs ns t := by
          rw [← h.1]
          rw [h.2] at hok
          simpa using hok
        exact absurd this hkne
      · rw [h.2]
        rw [h.2] at hok
        rcases mem_tagObj_cases ho1 with ⟨o0, ho0, h0 | h0⟩
        · rcases mem_uploadObj_cases ho0 with ⟨_, hne0⟩ | hfresh
          · exact absurd h0.1 hne0
          · rw [h0.2, hfresh]
            exact ⟨rfl, rfl⟩
        · rw [h0.2] at hok
          exact absurd hok h0.1
    · intro k0 hk0
      injection hk0 with hkk
      subst hkk
      constructor
      · rcases getMostRecentKeySt_mem hprev with ⟨o, ho, hok⟩
        refine ⟨S3Obj.mk o.key o.content (backupTag "old".data), ?_, hok⟩
        refine tagObj_retags ?_ hok
        refine tagObj_preserves_other ?_ (by rw [hok]; exact hkne)
        exact uploadObj_preserves_other ho (by rw [hok]; exact hkne)
      · intro o ho hok
        rcases mem_tagObj_cases ho with ⟨o1, ho1, h | h⟩
        · rw [h.2]
        · rw [h.2] at hok
          exact absurd hok h.1

/-- C1: whenever an explicit archive is provided, or no previous remote
backup exists, or the new backup's timestamp is strictly newer than the
previous remote backup's, `push_most_recent_backup` uploads the archive
under the canonical key for that timestamp and tags it `backup=new`, and
any previously most recent remote object is retagged `backup=old`.
(The previous key, when present, is assumed parseable — otherwise the run
raises before reaching the upload — and distinct from the new key.) -/
theorem push_uploads_and_retags (world ns : List Char)
    (rootPath : List (List Char)) (root : FSDir)
    (zipfile : Option (List (List Char) × DateTime))
    (path : List (List Char)) (t : DateTime) (st : List S3Obj)
    (hsel : zipfile = some (path, t) ∨
      (zipfile = none ∧ localScan world rootPath root = some (some (path, t))))
    (hcond : zipfile.isSome = true ∨ getMostRecentKeySt st ns = none ∨
      ∃ k pt, getMostRecentKeySt st ns = some k ∧
        backupTimeOfKey k = some pt ∧ dtLt pt t = true)
    (hparse : ∀ k, getMostRecentKeySt st ns = some k →
      ∃ pt, backupTimeOfKey k = some pt)
    (hne : ∀ k, getMostRecentKeySt st ns = some k → k ≠ s3BackupKeyNs ns t) :
    ∃ st', push_most_recent_backup world ns rootPath root zipfile st = some st' ∧
      (∃ o ∈ st', o.key = s3BackupKeyNs ns t) ∧
      (∀ o ∈ st', o.key = s3BackupKeyNs ns t →
        o.content = path ∧ o.tags = backupTag "new".data) ∧
      (∀ k, getMostRecentKeySt st ns = some k →
        (∃ o ∈ st', o.key = k) ∧
        ∀ o ∈ st', o.key = k → o.tags = backupTag "old".data) := by
  rcases hsel with hz | ⟨hz, hscan⟩
  · subst hz
    have heq : push_most_recent_backup world ns rootPath root
        (some (path, t)) st = pushCore true path t ns st := rfl
    rw [heq]
    exact pushCore_spec true path t ns st (Or.inl rfl) hparse hne
  · subst hz
    have heq : push_most_recent_backup world ns rootPath root none st =
        pushCore false path t ns st := by
      simp [push_most_recent_backup, hscan]
    rw [heq]
    refine pushCore_spec false path t ns st ?_ hparse hne
    rcases hcond with h | h
    · simp at h
    · exact Or.inr h

theorem push_uploads_and_retags_witness :
    ∃ st', push_most_recent_backup "w".data "s/backups/w".data
        ["backups".data] (FSDir.mk ["2020-05-05-00-00-00.zip".data] []) none
        [⟨"s/backups/w-20200101T000000.zip".data, [], backupTag "new".data⟩] =
        some st' ∧
      (∃ o ∈ st', o.key = s3BackupKeyNs "s/backups/w".data
        ⟨2020, 5, 5, 0, 0, 0⟩) ∧
      (∀ o ∈ st', o.key = s3BackupKeyNs "s/backups/w".data
          ⟨2020, 5, 5, 0, 0, 0⟩ →
        o.content = ["backups".data, "2020-05-05-00-00-00.zip".data] ∧
        o.tags = backupTag "new".data) ∧
      (∀ k, getMostRecentKeySt
          [⟨"s/backups/w-20200101T000000.zip".data, [],
            backupTag "new".data⟩] "s/backups/w".data = some k →
        (∃ o ∈ st', o.key = k) ∧
        ∀ o ∈ st', o.key = k → o.tags = backupTag "old".data) := by
  refine push_uploads_and_retags "w".data "s/backups/w".data ["backups".data]
      (FSDir.mk ["2020-05-05-00-00-00.zip".data] []) none
      ["backups".data, "2020-05-05-00-00-00.zip".data] ⟨2020, 5, 5, 0, 0, 0⟩
      [⟨"s/backups/w-20200101T000000.zip".data, [], backupTag "new".data⟩]
      (Or.inr ⟨rfl, by decide⟩) ?_ ?_ ?_
  · exact Or.inr (Or.inr ⟨"s/backups/w-20200101T000000.zip".data,
      ⟨2020, 1, 1, 0, 0, 0⟩, by decide, by decide, by decide⟩)
  · intro k hk
    have h0 : getMostRecentKeySt
        [⟨"s/backups/w-20200101T000000.zip".data, [], backupTag "new".data⟩]
        "s/backups/w".data =
        some "s/backups/w-20200101T000000.zip".data := by decide
    rw [h0] at hk
    injection hk with hkk
    exact ⟨⟨2020, 1, 1, 0, 0, 0⟩, by rw [← hkk]; decide⟩
  · intro k hk
    have h0 : getMostRecentKeySt
        [⟨"s/backups/w-20200101T000000.zip".data, [], backupTag "new".data⟩]
        "s/backups/w".data =
        some "s/backups/w-20200101T000000.zip".data := by decide
    rw [h0] at hk
    injection hk with hkk
    rw [← hkk]
    decide

/-- C10: in the older revision, when an upload happens both tag writes
target the newly uploaded key (with the hardcoded `josh-minecraft`
bucket), so the new object ends up tagged `backup=old` and the previously
most recent object keeps its tags untouched; on a common concrete scenario
the two revisions therefore produce different final tag states. -/
theorem pushCoreOld_mistags (path : List (List Char)) (t : DateTime)
    (ns : List Char) (st : List S3Obj) (k : List Char) (pt : DateTime)
    (hk : getMostRecentKeySt st ns = some k)
    (hpt : backupTimeOfKey k = some pt)
    (hlt : dtLt pt t = true)
    (hkne : k ≠ s3BackupKeyNs ns t) :
    (∃ st', pushCoreOld "josh-minecraft".data path t ns st = some st' ∧
      (∀ o ∈ st', o.key = s3BackupKeyNs ns t →
        o.tags = backupTag "old".data) ∧
      (∀ o ∈ st, o.key = k → o ∈ st')) ∧
    pushCoreOld "josh-minecraft".data [] ⟨2020, 2, 2, 0, 0, 0⟩
        "s/backups/w".data
        [⟨"s/backups/w-20200101T000000.zip".data, [], backupTag "new".data⟩] ≠
      pushCore false [] ⟨2020, 2, 2, 0, 0, 0⟩ "s/backups/w".data
        [⟨"s/backups/w-20200101T000000.zip".data, [],
          backupTag "new".data⟩] := by
  constructor
  · refine ⟨tagObj (tagObj (uploadObj st path (s3BackupKeyNs ns t))
        (s3BackupKeyNs ns t) (backupTag "current".data))
        (s3BackupKeyNs ns t) (backupTag "old".data), ?_, ?_, ?_⟩
    · simp [pushCoreOld, hk, hpt, hlt, tagObjOldRev]
    · intro o ho hok
      rcases mem_tagObj_cases ho with ⟨o1, ho1, h | h⟩
      · rw [h.2]
      · rw [h.2] at hok
        exact absurd hok h.1
    · intro o ho hok
      have hone : o.key ≠ s3BackupKeyNs ns t := by
        rw [hok]; exact hkne
      exact tagObj_preserves_other
        (tagObj_preserves_other (uploadObj_preserves_other ho hone) hone) hone
  · decide

theorem pushCoreOld_mistags_witness :
    (∃ st', pushCoreOld "josh-minecraft".data [] ⟨2020, 2, 2, 0, 0, 0⟩
        "s/backups/w".data
        [⟨"s/backups/w-20200101T000000.zip".data, [],
          backupTag "new".data⟩] = some st' ∧
      (∀ o ∈ st', o.key = s3BackupKeyNs "s/backups/w".data
          ⟨2020, 2, 2, 0, 0, 0⟩ → o.tags = backupTag "old".data) ∧
      (∀ o ∈ [(⟨"s/backups/w-20200101T000000.zip".data, [],
            backupTag "new".data⟩ : S3Obj)],
        o.key = "s/backups/w-20200101T000000.zip".data → o ∈ st')) ∧
    pushCoreOld "josh-minecraft".data [] ⟨2020, 2, 2, 0, 0, 0⟩
        "s/backups/w".data
        [⟨"s/backups/w-20200101T000000.zip".data, [], backupTag "new".data⟩] ≠
      pushCore false [] ⟨2020, 2, 2, 0, 0, 0⟩ "s/backups/w".data
        [⟨"s/backups/w-20200101T000000.zip".data, [],
          backupTag "new".data⟩] :=
  pushCoreOld_mistags [] ⟨2020, 2, 2, 0, 0, 0⟩ "s/backups/w".data
    [⟨"s/backups/w-20200101T000000.zip".data, [], backupTag "new".data⟩]
    "s/backups/w-20200101T000000.zip".data ⟨2020, 1, 1, 0, 0, 0⟩
    (by decide) (by decide) (by decide) (by decide)

theorem scanFiles_sound {root : List (List Char)} :
    ∀ {files : List (List Char)} {acc acc' : ScanAcc},
      scanFiles root files acc = some acc' →
      acc' = acc ∨ ∃ f ∈ files, ∃ t, acc' = some (root ++ [f], t) := by
  intro files
  induction files with
  | nil =>
    intro acc acc' h
    unfold scanFiles at h
    injection h with h
    exact Or.inl h.symm
  | cons f fs ih =>
    intro acc acc' h
    unfold scanFiles at h
    cases hm : matchBackupFormats f with
    | none =>
      rw [hm] at h
      rcases ih h with h1 | ⟨g, hg, t, ht⟩
      · exact Or.inl h1
      · exact Or.inr ⟨g, List.mem_cons_of_mem _ hg, t, ht⟩
    | some o =>
      cases o with
      | none => rw [hm] at h; cases h
      | some t =>
        rw [hm] at h
        rcases ih h with h1 | ⟨g, hg, t2, ht⟩
        · cases acc with
          | none =>
            exact Or.inr ⟨f, List.mem_cons_self f fs, t, by simpa using h1⟩
          | some pr =>
            obtain ⟨p0, t0⟩ := pr
            by_cases hlt : dtLt t0 t = true
            · simp only [hlt, if_true] at h1
              exact Or.inr ⟨f, List.mem_cons_self f fs, t, by simpa using h1⟩
            · simp only [hlt] at h1
              exact Or.inl (by simpa using h1)
        · exact Or.inr ⟨g, List.mem_cons_of_mem _ hg, t2, ht⟩

mutual
theorem scanTree_sound : ∀ (path : List (List Char)) (d : FSDir)
    (acc acc' : ScanAcc), scanTree path d acc = some acc' →
    acc' = acc ∨ ∃ p ∈ treePaths path d, ∃ t, acc' = some (p, t)
  | path, .mk files subdirs, acc, acc', h => by
    unfold scanTree at h
    cases hf : scanFiles path files acc with
    | none => rw [hf] at h; cases h
    | some acc1 =>
      rw [hf] at h
      rcases scanSubdirs_sound path subdirs acc1 acc' h with h1 | ⟨p, hp, t, ht⟩
      · subst h1
        rcases scanFiles_sound hf with h2 | ⟨f, hfm, t, ht⟩
        · exact Or.inl h2
        · refine Or.inr ⟨path ++ [f], ?_, t, ht⟩
          unfold treePaths
          exact List.mem_append.mpr (Or.inl (List.mem_map.mpr ⟨f, hfm, rfl⟩))
      · refine Or.inr ⟨p, ?_, t, ht⟩
        unfold treePaths
        exact List.mem_append.mpr (Or.inr hp)

theorem scanSubdirs_sound : ∀ (path : List (List Char))
    (sds : List (List Char × FSDir)) (acc acc' : ScanAcc),
    scanSubdirs path sds acc = some acc' →
    acc' = acc ∨ ∃ p ∈ subTreePaths path sds, ∃ t, acc' = some (p, t)
  | path, [], acc, acc', h => by
    unfold scanSubdirs at h
    injection h with h
    exact Or.inl h.symm
  | path, (n, sub) :: rest, acc, acc', h => by
    unfold scanSubdirs at h
    cases ht : scanTree (path ++ [n]) sub acc with
    | none => rw [ht] at h; cases h
    | some acc1 =>
      rw [ht] at h
      rcases scanSubdirs_sound path rest acc1 acc' h with h1 | ⟨p, hp, t, htt⟩
      · subst h1
        rcases scanTree_sound (path ++ [n]) sub acc acc' ht with
          h2 | ⟨p, hp, t, htt⟩
        · exact Or.inl h2
        · refine Or.inr ⟨p, ?_, t, htt⟩
          unfold subTreePaths
          exact List.mem_append.mpr (Or.inl hp)
      · refine Or.inr ⟨p, ?_, t, htt⟩
        unfold subTreePaths
        exact List.mem_append.mpr (Or.inr hp)
end

/-- C5: when a subdirectory named exactly after the configured world exists
directly under the backup root, any candidate the local scan returns lies
among the root level's direct files or inside a world-named subdirectory's
tree — never inside a sibling subdirectory. -/
theorem localScan_excludes_siblings (world : List Char)
    (rootPath : List (List Char)) (root : FSDir)
    (path : List (List Char)) (t : DateTime)
    (hw : (root.subdirs.any (fun p => p.1 == world)) = true)
    (hres : localScan world rootPath root = some (some (path, t))) :
    path ∈ root.files.map (fun f => rootPath ++ [f]) ++
      subTreePaths rootPath
        (root.subdirs.filter (fun p => p.1 == world)) := by
  obtain ⟨files, subdirs⟩ := root
  unfold localScan at hres
  simp only [FSDir.files, FSDir.subdirs] at hw ⊢
  simp only [FSDir.subdirs] at hres
  rw [if_pos hw] at hres
  cases hsf : scanFiles rootPath files none with
  | none => rw [hsf] at hres; cases hres
  | some acc1 =>
    rw [hsf] at hres
    rcases scanSubdirs_sound rootPath
        (subdirs.filter (fun p => p.1 == world)) acc1 _ hres with
      h1 | ⟨p, hp, t2, ht2⟩
    · rcases scanFiles_sound hsf with h2 | ⟨f, hfm, t3, ht3⟩
      · rw [← h1] at h2; cases h2
      · rw [← h1] at ht3
        injection ht3 with ht3
        have hpp : path = rootPath ++ [f] := congrArg Prod.fst ht3
        refine List.mem_append.mpr (Or.inl ?_)
        exact List.mem_map.mpr ⟨f, hfm, hpp.symm⟩
    · injection ht2 with ht2
      have hpp : path = p := congrArg Prod.fst ht2
      refine List.mem_append.mpr (Or.inr ?_)
      rw [hpp]
      exact hp

theorem localScan_excludes_siblings_witness :
    (((FSDir.mk ([] : List (List Char))
        [("my_world".data, FSDir.mk ["2020-02-02-00-00-00.zip".data] []),
         ("other".data, FSDir.mk ["2021-01-01-00-00-00.zip".data] [])]).subdirs.any
      (fun p => p.1 == "my_world".data)) = true) ∧
    ["backups".data, "my_world".data, "2020-02-02-00-00-00.zip".data] ∈
      (FSDir.mk ([] : List (List Char))
        [("my_world".data, FSDir.mk ["2020-02-02-00-00-00.zip".data] []),
         ("other".data, FSDir.mk ["2021-01-01-00-00-00.zip".data] [])]).files.map
          (fun f => ["backups".data] ++ [f]) ++
        subTreePaths ["backups".data]
          ((FSDir.mk ([] : List (List Char))
            [("my_world".data, FSDir.mk ["2020-02-02-00-00-00.zip".data] []),
             ("other".data,
               FSDir.mk ["2021-01-01-00-00-00.zip".data] [])]).subdirs.filter
            (fun p => p.1 == "my_world".data)) :=
  ⟨by decide,
   localScan_excludes_siblings "my_world".data ["backups".data]
     (FSDir.mk []
       [("my_world".data, FSDir.mk ["2020-02-02-00-00-00.zip".data] []),
        ("other".data, FSDir.mk ["2021-01-01-00-00-00.zip".data] [])])
     ["backups".data, "my_world".data, "2020-02-02-00-00-00.zip".data]
     ⟨2020, 2, 2, 0, 0, 0⟩ (by decide) (by decide)⟩

/-- C7 (code behaviour at the failing input): on a server root lacking the
named world subdirectory, `make_archive` still creates a real (empty)
archive file and reports no error, and `push_current_backup` then uploads
that empty archive as the new remote backup and tags it `backup=new` —
archive construction does not fail loudly and a file is produced. -/
theorem push_current_backup_missing_world :
    make_archive
        (FSDir.mk ["server.properties".data]
          [("other_world".data, FSDir.mk ["f".data] [])]) "my_world".data =
      ⟨true, [], false⟩ ∧
    (push_current_backup "my_server".data "my_world".data
        (FSDir.mk ["server.properties".data]
          [("other_world".data, FSDir.mk ["f".data] [])])
        ⟨2020, 3, 4, 2, 34, 56⟩ []).2 =
      some [⟨s3_backup_key "my_server".data "my_world".data
          ⟨2020, 3, 4, 2, 34, 56⟩,
        ["tmp".data,
          basename (s3_backup_key "my_server".data "my_world".data
            ⟨2020, 3, 4, 2, 34, 56⟩)],
        backupTag "new".data⟩] := by
  constructor
  · decide
  · decide

theorem daysInMonth_le (y mo : Nat) : daysInMonth y mo ≤ 31 := by
  unfold daysInMonth
  split_ifs <;> norm_num

theorem padChars_combine :
    ∀ w2 w1 a b, b < 10 ^ w2 →
      padChars (w1 + w2) (a * 10 ^ w2 + b) = padChars w1 a ++ padChars w2 b
  | 0, w1, a, b, hb => by
    simp [Nat.pow_zero] at hb
    have hb0 : b = 0 := by omega
    subst hb0
    simp [padChars]
  | w2 + 1, w1, a, b, hb => by
    have hre : a * 10 ^ (w2 + 1) + b = b + a * 10 ^ w2 * 10 := by ring
    have hdiv : (a * 10 ^ (w2 + 1) + b) / 10 = a * 10 ^ w2 + b / 10 := by
      rw [hre, Nat.add_mul_div_right _ _ (by norm_num : (0:Nat) < 10)]
      omega
    have hmod : digitCh (a * 10 ^ (w2 + 1) + b) = digitCh b := by
      unfold digitCh
      rw [hre, Nat.add_mul_mod_self_right]
    have hb10 : b / 10 < 10 ^ w2 := by
      have h10 : 10 ^ (w2 + 1) = 10 ^ w2 * 10 := Nat.pow_succ 10 w2
      omega
    rw [show padChars (w1 + (w2 + 1)) (a * 10 ^ (w2 + 1) + b) =
        padChars (w1 + w2) ((a * 10 ^ (w2 + 1) + b) / 10) ++
          [digitCh (a * 10 ^ (w2 + 1) + b)] from rfl]
    rw [hdiv, hmod, padChars_combine w2 w1 a (b / 10) hb10,
      List.append_assoc]
    rfl

theorem s3Fmt_decompose (t : DateTime) (h : validDT t) :
    s3Fmt t = padChars 8 (dateVal t) ++ 'T' :: padChars 6 (timeVal t) := by
  obtain ⟨hy1, hy2, hmo1, hmo2, hd1, hd2, hh, hmi, hs⟩ := h
  have hd31 : t.d ≤ 31 := le_trans hd2 (daysInMonth_le _ _)
  have e1 : dateVal t = t.y * 10 ^ 4 + (t.mo * 10 ^ 2 + t.d) := by
    unfold dateVal; ring
  have e2 : timeVal t = t.h * 10 ^ 4 + (t.mi * 10 ^ 2 + t.s) := by
    unfold timeVal; ring
  have hb1 : t.mo * 10 ^ 2 + t.d < 10 ^ 4 := by norm_num; omega
  have hb2 : t.d < 10 ^ 2 := by norm_num; omega
  have hb3 : t.mi * 10 ^ 2 + t.s < 10 ^ 4 := by norm_num; omega
  have hb4 : t.s < 10 ^ 2 := by norm_num; omega
  have h8 : padChars 8 (dateVal t) =
      padChars 4 t.y ++ (padChars 2 t.mo ++ padChars 2 t.d) := by
    rw [e1]
    rw [show (8 : Nat) = 4 + 4 from rfl,
      padChars_combine 4 4 t.y _ hb1,
      show (4 : Nat) = 2 + 2 from rfl,
      padChars_combine 2 2 t.mo t.d hb2]
  have h6 : padChars 6 (timeVal t) =
      padChars 2 t.h ++ (padChars 2 t.mi ++ padChars 2 t.s) := by
    rw [e2]
    have : padChars 6 (t.h * 10 ^ 4 + (t.mi * 10 ^ 2 + t.s)) =
        padChars 2 t.h ++ padChars 4 (t.mi * 10 ^ 2 + t.s) :=
      padChars_combine 4 2 t.h _ hb3
    rw [this, show (4 : Nat) = 2 + 2 from rfl,
      padChars_combine 2 2 t.mi t.s hb4]
  rw [h8, h6]
  unfold s3Fmt
  simp [List.append_assoc]

theorem dtLt_iff (a b : DateTime) (ha : validDT a) (hb : validDT b) :
    dtLt a b = true ↔
      dateVal a < dateVal b ∨
        (dateVal a = dateVal b ∧ timeVal a < timeVal b) := by
  obtain ⟨hy1a, hy2a, hmo1a, hmo2a, hd1a, hd2a, hha, hmia, hsa⟩ := ha
  obtain ⟨hy1b, hy2b, hmo1b, hmo2b, hd1b, hd2b, hhb, hmib, hsb⟩ := hb
  have hda : a.d ≤ 31 := le_trans hd2a (daysInMonth_le _ _)
  have hdb : b.d ≤ 31 := le_trans hd2b (daysInMonth_le _ _)
  unfold dtLt dateVal timeVal
  by_cases h1 : a.y < b.y
  · rw [if_pos h1]; exact iff_of_true rfl (by omega)
  · rw [if_neg h1]
    by_cases h2 : b.y < a.y
    · rw [if_pos h2]; exact iff_of_false (by simp) (by omega)
    · rw [if_neg h2]
      by_cases h3 : a.mo < b.mo
      · rw [if_pos h3]; exact iff_of_true rfl (by omega)
      · rw [if_neg h3]
        by_cases h4 : b.mo < a.mo
        · rw [if_pos h4]; exact iff_of_false (by simp) (by omega)
        · rw [if_neg h4]
          by_cases h5 : a.d < b.d
          · rw [if_pos h5]; exact iff_of_true rfl (by omega)
          · rw [if_neg h5]
            by_cases h6 : b.d < a.d
            · rw [if_pos h6]; exact iff_of_false (by simp) (by omega)
            · rw [if_neg h6]
              by_cases h7 : a.h < b.h
              · rw [if_pos h7]; exact iff_of_true rfl (by omega)
              · rw [if_neg h7]
                by_cases h8 : b.h < a.h
                · rw [if_pos h8]; exact iff_of_false (by simp) (by omega)
                · rw [if_neg h8]
                  by_cases h9 : a.mi < b.mi
                  · rw [if_pos h9]; exact iff_of_true rfl (by omega)
                  · rw [if_neg h9]
                    by_cases h10 : b.mi < a.mi
                    · rw [if_pos h10]
                      exact iff_of_false (by simp) (by omega)
                    · rw [if_neg h10, decide_eq_true_eq]
                      omega

/-- C4: for a fixed server and world, the canonical keys of two instants
compare under plain lexicographic string comparison exactly as the
instants compare chronologically (monotone key property). -/
theorem s3_backup_key_monotone (server world : List Char) (t1 t2 : DateTime)
    (h1 : validDT t1) (h2 : validDT t2) (hlt : dtLt t1 t2 = true) :
    lexLt (s3_backup_key server world t1) (s3_backup_key server world t2)
      = true := by
  have harr : ∀ t : DateTime,
      s3_backup_key server world t =
        (s3BackupNs server world ++ ['-']) ++ (s3Fmt t ++ ".zip".data) := by
    intro t
    unfold s3_backup_key
    simp [List.append_assoc]
  have hb1 : dateVal t1 < 10 ^ 8 := by
    obtain ⟨a1, a2, a3, a4, a5, a6, a7, a8, a9⟩ := h1
    have hd := daysInMonth_le t1.y t1.mo
    unfold dateVal; norm_num; omega
  have hb2 : dateVal t2 < 10 ^ 8 := by
    obtain ⟨a1, a2, a3, a4, a5, a6, a7, a8, a9⟩ := h2
    have hd := daysInMonth_le t2.y t2.mo
    unfold dateVal; norm_num; omega
  have ht1 : timeVal t1 < 10 ^ 6 := by
    obtain ⟨a1, a2, a3, a4, a5, a6, a7, a8, a9⟩ := h1
    unfold timeVal; norm_num; omega
  have ht2 : timeVal t2 < 10 ^ 6 := by
    obtain ⟨a1, a2, a3, a4, a5, a6, a7, a8, a9⟩ := h2
    unfold timeVal; norm_num; omega
  rw [harr, harr, lexLt_append_left, s3Fmt_decompose t1 h1,
    s3Fmt_decompose t2 h2, List.append_assoc, List.append_assoc,
    lexLt_append_eq_length _ _ _ _ (by simp [padChars_length])]
  rcases (dtLt_iff t1 t2 h1 h2).mp hlt with hc | ⟨heq, hts⟩
  · have hdd := (lexLt_padChars 8 _ _ hb1 hb2).mpr hc
    simp [hdd]
  · rw [heq]
    have hinner : lexLt ('T' :: (padChars 6 (timeVal t1) ++ ".zip".data))
        ('T' :: (padChars 6 (timeVal t2) ++ ".zip".data)) =
        lexLt (padChars 6 (timeVal t1) ++ ".zip".data)
          (padChars 6 (timeVal t2) ++ ".zip".data) := by
      simp [lexLt]
    have htt := (lexLt_padChars 6 _ _ ht1 ht2).mpr hts
    have hzz : lexLt (padChars 6 (timeVal t1) ++ ".zip".data)
        (padChars 6 (timeVal t2) ++ ".zip".data) = true := by
      rw [lexLt_append_eq_length _ _ _ _ (by simp [padChars_length])]
      simp [htt]
    simp [lexLt_self, List.cons_append, hinner, hzz]

theorem s3_backup_key_monotone_witness :
    validDT ⟨2020, 3, 4, 12, 35, 40⟩ ∧ validDT ⟨2020, 3, 4, 12, 35, 41⟩ ∧
    dtLt ⟨2020, 3, 4, 12, 35, 40⟩ ⟨2020, 3, 4, 12, 35, 41⟩ = true ∧
    lexLt (s3_backup_key "my_server".data "my_world".data
        ⟨2020, 3, 4, 12, 35, 40⟩)
      (s3_backup_key "my_server".data "my_world".data
        ⟨2020, 3, 4, 12, 35, 41⟩) = true :=
  ⟨by decide, by decide, by decide,
   s3_backup_key_monotone "my_server".data "my_world".data
     ⟨2020, 3, 4, 12, 35, 40⟩ ⟨2020, 3, 4, 12, 35, 41⟩
     (by decide) (by decide) (by decide)⟩

theorem digitCh_isDigit (d : Nat) : (digitCh d).isDigit = true := by
  have h : d % 10 < 10 := Nat.mod_lt _ (by norm_num)
  unfold digitCh
  set m := d % 10 with hm
  interval_cases m <;> decide

theorem digitCh_no_slash (d : Nat) : ((digitCh d) == '/') = false := by
  have h := digitCh_toNat d
  rw [beq_eq_false_iff_ne]
  intro he
  rw [he] at h
  rw [show ('/' : Char).toNat = 47 from rfl] at h
  omega

theorem isWordChar_no_slash {c : Char} (h : isWordChar c = true) :
    (c == '/') = false := by
  rcases Bool.eq_false_or_eq_true (c == '/') with ht | hf
  · have hc : c = '/' := by simpa using ht
    rw [hc] at h
    exact absurd h (by decide)
  · exact hf

theorem padChars_two (n : Nat) :
    padChars 2 n = [digitCh (n / 10), digitCh n] := by
  simp [padChars]

theorem padChars_four (n : Nat) :
    padChars 4 n =
      [digitCh (n / 1000), digitCh (n / 100), digitCh (n / 10), digitCh n] := by
  simp [padChars, Nat.div_div_eq_div_mul]

theorem s3Fmt_explicit (t : DateTime) :
    s3Fmt t = [digitCh (t.y / 1000), digitCh (t.y / 100), digitCh (t.y / 10),
      digitCh t.y, digitCh (t.mo / 10), digitCh t.mo, digitCh (t.d / 10),
      digitCh t.d, 'T', digitCh (t.h / 10), digitCh t.h,
      digitCh (t.mi / 10), digitCh t.mi, digitCh (t.s / 10), digitCh t.s] := by
  unfold s3Fmt
  rw [padChars_four, padChars_two, padChars_two, padChars_two, padChars_two,
    padChars_two]
  rfl

theorem s3Fmt_no_slash (t : DateTime) :
    ∀ c ∈ s3Fmt t, (c == '/') = false := by
  intro c hc
  rw [s3Fmt_explicit] at hc
  simp only [List.mem_cons, List.not_mem_nil, or_false] at hc
  rcases hc with rfl | rfl | rfl | rfl | rfl | rfl | rfl | rfl | rfl | rfl |
    rfl | rfl | rfl | rfl | rfl
  all_goals first
    | exact digitCh_no_slash _
    | decide

theorem takeWhile_append_stop {p : Char → Bool} :
    ∀ (as : List Char) (b : Char) (bs : List Char),
      (∀ a ∈ as, p a = true) → p b = false →
      (as ++ b :: bs).takeWhile p = as
  | [], b, bs, _, hb => by
    simp [List.takeWhile_cons, hb]
  | a :: as, b, bs, ha, hb => by
    have h1 : p a = true := ha a (List.mem_cons_self a as)
    simp only [List.cons_append, List.takeWhile_cons, h1, if_true]
    rw [takeWhile_append_stop as b bs (fun x hx => ha x (List.mem_cons_of_mem _ hx)) hb]

theorem basename_of_append (xs ys : List Char)
    (hys : ∀ c ∈ ys, (c == '/') = false) :
    basename (xs ++ '/' :: ys) = ys := by
  unfold basename
  rw [List.reverse_append]
  rw [show ('/' :: ys).reverse = ys.reverse ++ ['/'] by simp]
  rw [List.append_assoc]
  rw [show (['/'] ++ xs.reverse) = '/' :: xs.reverse from rfl]
  rw [takeWhile_append_stop ys.reverse '/' xs.reverse
    (fun a ha => by simpa using hys a (List.mem_reverse.mp ha)) (by decide)]
  exact List.reverse_reverse ys

theorem greedyWord_skip (k : List Char → Option (List Char)) (s : List Char) :
    ∀ p L, L ≤ p →
      (∀ q, L < q → q ≤ p → ((s.take q).all isWordChar) = false) →
      greedyWord k s p = greedyWord k s L := by
  intro p
  induction p with
  | zero =>
    intro L hL _
    have : L = 0 := by omega
    rw [this]
  | succ p ih =>
    intro L hL hq
    by_cases hLp : L = p + 1
    · rw [hLp]
    · have hLp' : L ≤ p := by omega
      have hcond : ((s.take (p + 1)).all isWordChar) = false :=
        hq (p + 1) (by omega) (le_refl _)
      have hstep : greedyWord k s (p + 1) =
          if ((s.take (p + 1)).all isWordChar) = true then
            (match k (s.drop (p + 1)) with
              | some g => some g
              | none => greedyWord k s p)
          else greedyWord k s p := rfl
      rw [hstep, hcond]
      rw [if_neg (by simp)]
      exact ih L hLp' (fun q hq1 hq2 => hq q hq1 (by omega))

theorem s3BackupMatch_of_shape (w r : List Char) (hw : w ≠ [])
    (hall : w.all isWordChar = true) (g : List Char)
    (hk : s3PatAt ('-' :: r) = some g) :
    s3BackupMatch (w ++ '-' :: r) = some g := by
  have hLlen : w.length ≤ (w ++ '-' :: r).length := by simp
  have hskip : ∀ q, w.length < q → q ≤ (w ++ '-' :: r).length →
      (((w ++ '-' :: r).take q).all isWordChar) = false := by
    intro q hq1 _
    have htake : (w ++ '-' :: r).take q = w ++ ('-' :: r).take (q - w.length) := by
      rw [List.take_append_eq_append_take, List.take_of_length_le (by omega)]
    have hmem : ('-' : Char) ∈ (w ++ '-' :: r).take q := by
      rw [htake]
      refine List.mem_append.mpr (Or.inr ?_)
      have h1 : 1 ≤ q - w.length := by omega
      cases hqc : q - w.length with
      | zero => omega
      | succ n =>
        simp [List.take_succ_cons]
    rcases Bool.eq_false_or_eq_true (((w ++ '-' :: r).take q).all isWordChar) with
      ht | hf
    · exfalso
      have := List.all_eq_true.mp ht _ hmem
      exact absurd this (by decide)
    · exact hf
  have h1 : s3BackupMatch (w ++ '-' :: r) =
      greedyWord s3PatAt (w ++ '-' :: r) w.length := by
    unfold s3BackupMatch
    exact greedyWord_skip s3PatAt (w ++ '-' :: r) (w ++ '-' :: r).length
      w.length hLlen hskip
  obtain ⟨L, hL⟩ : ∃ L, w.length = L + 1 := by
    cases hwc : w with
    | nil => exact absurd hwc hw
    | cons a as => exact ⟨as.length, by simp⟩
  rw [h1, hL]
  have htakeL : (w ++ '-' :: r).take (L + 1) = w := by
    rw [← hL]
    exact List.take_left w ('-' :: r)
  have hdropL : (w ++ '-' :: r).drop (L + 1) = '-' :: r := by
    rw [← hL]
    exact List.drop_left w ('-' :: r)
  unfold greedyWord
  rw [htakeL, hdropL, hall, hk]
  simp

theorem digitVal_digitCh (m : Nat) : digitVal (digitCh m) = m % 10 := by
  unfold digitVal
  rw [digitCh_toNat]
  omega

theorem natOfDigits_four (n : Nat) (h : n < 10000) :
    natOfDigits [digitCh (n / 1000), digitCh (n / 100), digitCh (n / 10),
      digitCh n] = n := by
  simp [natOfDigits, digitVal_digitCh]
  omega

theorem natOfDigits_two (n : Nat) (h : n < 100) :
    natOfDigits [digitCh (n / 10), digitCh n] = n := by
  simp [natOfDigits, digitVal_digitCh]
  omega

theorem s3PatAt_fmt (t : DateTime) :
    s3PatAt ('-' :: (s3Fmt t ++ ".zip".data)) = some (s3Fmt t) := by
  rw [s3Fmt_explicit, show ".zip".data = ['.', 'z', 'i', 'p'] from rfl]
  rw [show ([digitCh (t.y / 1000), digitCh (t.y / 100), digitCh (t.y / 10), digitCh t.y, digitCh (t.mo / 10), digitCh t.mo, digitCh (t.d / 10), digitCh t.d, 'T', digitCh (t.h / 10), digitCh t.h, digitCh (t.mi / 10), digitCh t.mi, digitCh (t.s / 10), digitCh t.s] ++ ['.', 'z', 'i', 'p']) = [digitCh (t.y / 1000), digitCh (t.y / 100), digitCh (t.y / 10), digitCh t.y, digitCh (t.mo / 10), digitCh t.mo, digitCh (t.d / 10), digitCh t.d, 'T', digitCh (t.h / 10), digitCh t.h, digitCh (t.mi / 10), digitCh t.mi, digitCh (t.s / 10), digitCh t.s, '.', 'z', 'i', 'p'] from rfl]
  have hred : ∀ ts : List Char, s3PatAt ('-' :: ts) =
      if 19 ≤ ts.length ∧ (ts.take 8).all Char.isDigit ∧ ts[8]? = some 'T' ∧
          ((ts.drop 9).take 6).all Char.isDigit ∧
          ts[16]? = some 'z' ∧ ts[17]? = some 'i' ∧ ts[18]? = some 'p' then
        some (ts.take 15)
      else none := fun ts => rfl
  rw [hred]
  rw [if_pos]
  · rfl
  · refine ⟨by norm_num, ?_, rfl, ?_, rfl, rfl, rfl⟩
    · rw [show ([digitCh (t.y / 1000), digitCh (t.y / 100), digitCh (t.y / 10), digitCh t.y, digitCh (t.mo / 10), digitCh t.mo, digitCh (t.d / 10), digitCh t.d, 'T', digitCh (t.h / 10), digitCh t.h, digitCh (t.mi / 10), digitCh t.mi, digitCh (t.s / 10), digitCh t.s, '.', 'z', 'i', 'p'].take 8) = [digitCh (t.y / 1000), digitCh (t.y / 100), digitCh (t.y / 10), digitCh t.y, digitCh (t.mo / 10), digitCh t.mo, digitCh (t.d / 10), digitCh t.d] from rfl]
      simp [digitCh_isDigit]
    · rw [show (([digitCh (t.y / 1000), digitCh (t.y / 100), digitCh (t.y / 10), digitCh t.y, digitCh (t.mo / 10), digitCh t.mo, digitCh (t.d / 10), digitCh t.d, 'T', digitCh (t.h / 10), digitCh t.h, digitCh (t.mi / 10), digitCh t.mi, digitCh (t.s / 10), digitCh t.s, '.', 'z', 'i', 'p'].drop 9).take 6) = [digitCh (t.h / 10), digitCh t.h, digitCh (t.mi / 10), digitCh t.mi, digitCh (t.s / 10), digitCh t.s] from rfl]
      simp [digitCh_isDigit]

theorem strptimeS3_fmt (t : DateTime) (hv : validDT t) :
    strptimeS3 (s3Fmt t) = some t := by
  have hy : t.y < 10000 := by rcases hv with ⟨_, h2, _⟩; omega
  have hmo : t.mo < 100 := by rcases hv with ⟨_, _, _, h4, _⟩; omega
  have hd : t.d < 100 := by
    rcases hv with ⟨_, _, _, _, _, h6, _⟩
    have := daysInMonth_le t.y t.mo
    omega
  have hh : t.h < 100 := by rcases hv with ⟨_, _, _, _, _, _, h7, _⟩; omega
  have hmi : t.mi < 100 := by
    rcases hv with ⟨_, _, _, _, _, _, _, h8, _⟩; omega
  have hs : t.s < 100 := by
    rcases hv with ⟨_, _, _, _, _, _, _, _, h9⟩; omega
  rw [s3Fmt_explicit]
  unfold strptimeS3
  rw [if_pos]
  · rw [show ([digitCh (t.y / 1000), digitCh (t.y / 100), digitCh (t.y / 10), digitCh t.y, digitCh (t.mo / 10), digitCh t.mo, digitCh (t.d / 10), digitCh t.d, 'T', digitCh (t.h / 10), digitCh t.h, digitCh (t.mi / 10), digitCh t.mi, digitCh (t.s / 10), digitCh t.s].take 4) = [digitCh (t.y / 1000), digitCh (t.y / 100),
        digitCh (t.y / 10), digitCh t.y] from rfl,
      show (([digitCh (t.y / 1000), digitCh (t.y / 100), digitCh (t.y / 10), digitCh t.y, digitCh (t.mo / 10), digitCh t.mo, digitCh (t.d / 10), digitCh t.d, 'T', digitCh (t.h / 10), digitCh t.h, digitCh (t.mi / 10), digitCh t.mi, digitCh (t.s / 10), digitCh t.s].drop 4).take 2) = [digitCh (t.mo / 10), digitCh t.mo]
        from rfl,
      show (([digitCh (t.y / 1000), digitCh (t.y / 100), digitCh (t.y / 10), digitCh t.y, digitCh (t.mo / 10), digitCh t.mo, digitCh (t.d / 10), digitCh t.d, 'T', digitCh (t.h / 10), digitCh t.h, digitCh (t.mi / 10), digitCh t.mi, digitCh (t.s / 10), digitCh t.s].drop 6).take 2) = [digitCh (t.d / 10), digitCh t.d]
        from rfl,
      show (([digitCh (t.y / 1000), digitCh (t.y / 100), digitCh (t.y / 10), digitCh t.y, digitCh (t.mo / 10), digitCh t.mo, digitCh (t.d / 10), digitCh t.d, 'T', digitCh (t.h / 10), digitCh t.h, digitCh (t.mi / 10), digitCh t.mi, digitCh (t.s / 10), digitCh t.s].drop 9).take 2) = [digitCh (t.h / 10), digitCh t.h]
        from rfl,
      show (([digitCh (t.y / 1000), digitCh (t.y / 100), digitCh (t.y / 10), digitCh t.y, digitCh (t.mo / 10), digitCh t.mo, digitCh (t.d / 10), digitCh t.d, 'T', digitCh (t.h / 10), digitCh t.h, digitCh (t.mi / 10), digitCh t.mi, digitCh (t.s / 10), digitCh t.s].drop 11).take 2) = [digitCh (t.mi / 10), digitCh t.mi]
        from rfl,
      show (([digitCh (t.y / 1000), digitCh (t.y / 100), digitCh (t.y / 10), digitCh t.y, digitCh (t.mo / 10), digitCh t.mo, digitCh (t.d / 10), digitCh t.d, 'T', digitCh (t.h / 10), digitCh t.h, digitCh (t.mi / 10), digitCh t.mi, digitCh (t.s / 10), digitCh t.s].drop 13).take 2) = [digitCh (t.s / 10), digitCh t.s]
        from rfl,
      natOfDigits_four t.y hy, natOfDigits_two t.mo hmo,
      natOfDigits_two t.d hd, natOfDigits_two t.h hh,
      natOfDigits_two t.mi hmi, natOfDigits_two t.s hs]
    rw [if_pos hv]
  · refine ⟨rfl, ?_, rfl, ?_⟩
    · rw [show ([digitCh (t.y / 1000), digitCh (t.y / 100), digitCh (t.y / 10), digitCh t.y, digitCh (t.mo / 10), digitCh t.mo, digitCh (t.d / 10), digitCh t.d, 'T', digitCh (t.h / 10), digitCh t.h, digitCh (t.mi / 10), digitCh t.mi, digitCh (t.s / 10), digitCh t.s].take 8) = [digitCh (t.y / 1000), digitCh (t.y / 100), digitCh (t.y / 10), digitCh t.y, digitCh (t.mo / 10), digitCh t.mo, digitCh (t.d / 10), digitCh t.d] from rfl]
      simp [digitCh_isDigit]
    · rw [show (([digitCh (t.y / 1000), digitCh (t.y / 100), digitCh (t.y / 10), digitCh t.y, digitCh (t.mo / 10), digitCh t.mo, digitCh (t.d / 10), digitCh t.d, 'T', digitCh (t.h / 10), digitCh t.h, digitCh (t.mi / 10), digitCh t.mi, digitCh (t.s / 10), digitCh t.s].drop 9).take 6) = [digitCh (t.h / 10), digitCh t.h, digitCh (t.mi / 10), digitCh t.mi, digitCh (t.s / 10), digitCh t.s] from rfl]
      simp [digitCh_isDigit]

/-- C3: parsing the timestamp back out of a key produced by
`s3_backup_key` — matching the basename against `S3_BACKUP_RE` and applying
the inverse date format — yields exactly the original instant, for every
valid instant (year within `strftime`'s Python 2 domain) and every
word-character world name. -/
theorem s3_backup_key_roundtrip (server world : List Char) (t : DateTime)
    (hv : validDT t) (hy : 1900 ≤ t.y)
    (hw : world ≠ []) (hwall : world.all isWordChar = true) :
    backupTimeOfKey (s3_backup_key server world t) = some t := by
  have hsplit : s3_backup_key server world t =
      (server ++ "/backups".data) ++ '/' ::
        (world ++ '-' :: (s3Fmt t ++ ".zip".data)) := by
    unfold s3_backup_key s3BackupNs
    rw [show "/backups/".data = "/backups".data ++ ['/'] from rfl]
    simp [List.append_assoc]
  have hnos : ∀ c ∈ world ++ '-' :: (s3Fmt t ++ ".zip".data),
      (c == '/') = false := by
    intro c hc
    rcases List.mem_append.mp hc with h | h
    · exact isWordChar_no_slash (List.all_eq_true.mp hwall c h)
    · rcases List.mem_cons.mp h with rfl | h2
      · decide
      · rcases List.mem_append.mp h2 with h3 | h4
        · exact s3Fmt_no_slash t c h3
        · have hz : c ∈ ['.', 'z', 'i', 'p'] := by
            rw [show ".zip".data = ['.', 'z', 'i', 'p'] from rfl] at h4
            exact h4
          fin_cases hz <;> decide
  unfold backupTimeOfKey
  rw [hsplit, basename_of_append _ _ hnos,
    s3BackupMatch_of_shape world _ hw hwall _ (s3PatAt_fmt t)]
  simp [strptimeS3_fmt t hv]

theorem s3_backup_key_roundtrip_witness :
    validDT ⟨2020, 3, 4, 12, 35, 40⟩ ∧
    backupTimeOfKey (s3_backup_key "my_server".data "my_world".data
      ⟨2020, 3, 4, 12, 35, 40⟩) = some ⟨2020, 3, 4, 12, 35, 40⟩ :=
  ⟨by decide,
   s3_backup_key_roundtrip "my_server".data "my_world".data
     ⟨2020, 3, 4, 12, 35, 40⟩ (by decide) (by decide) (by decide) (by decide)⟩
